import Mathlib

/-!
Verification of the retrieval core of the casenotes-chatbot backend.

The development shallowly embeds the algorithmic core of the repository:

* `backend/app/services/chunking.py` — sentence-aware chunking with
  character-measured overlap (`chunk_text`);
* `backend/app/services/vector_search.py` — scoped top-K similarity
  retrieval (`find_similar_chunks`), with the SQL `SELECT ... WHERE ...
  ORDER BY ... LIMIT` read denotationally over an in-memory table;
* `backend/app/services/llm.py` — prompt assembly and history
  truncation (`generate_answer`'s pure request-building part);
* `backend/app/services/embedding.py` — the query/document embedding
  entry points (`embed_query`, `embed_documents`), with the HTTP
  transport abstracted as a function from request payloads to responses.

External collaborators (the nltk sentence tokenizer, the pgvector
distance operator, the HuggingFace inference endpoint, Gemini) are
passed in as explicit parameters, never hard-coded, so the theorems
quantify over all of their behaviours.  Python strings are modelled as
`String`, character counts (`len`) as `String.length`, machine floats
appearing only as opaque scores as `ℚ`.
-/

namespace CaseNotes

/-! ### chunking.py -/

/-- Python `" ".join(xs)` (chunking.py line 121): the elements of `xs`
separated by single spaces. -/
def joinSp : List String → String
  | [] => ""
  | [s] => s
  | s :: rest => s ++ " " ++ joinSp rest

/-- Character count of `joinSp xs`: the sum of the element lengths plus
one separator per adjacent pair.  This is the quantity the chunker's
`char_count` / `overlap_char_count` accumulators track. -/
def joinLen : List String → Nat
  | [] => 0
  | [s] => s.length
  | s :: rest => s.length + 1 + joinLen rest

/-- Python `text.strip()`: remove leading and trailing whitespace. -/
def pyStrip (s : String) : String :=
  String.mk (((s.data.dropWhile Char.isWhitespace).reverse.dropWhile Char.isWhitespace).reverse)

/-- The sentence index range `sentences[a:b]` (a contiguous slice). -/
def slice (l : List String) (a b : Nat) : List String :=
  (l.drop a).take (b - a)

/-- Step 1 of `chunk_text` (chunking.py lines 98–111): greedily append
sentences until the next would push the chunk over `max_chars`, but
always admit at least the first sentence.  The Python loop
`while j < len(sentences)` is modelled by structural recursion on the
remaining sentence list `sentences[j:]`; `acc`/`cnt` are the loop
variables `chunk_sents`/`char_count` and `j` the running index.
Returns `(chunk_sents, j)`. -/
def fillGo (max_chars : Nat) : List String → Nat → List String → Nat → List String × Nat
  | [], j, acc, _ => (acc, j)
  | s :: rest, j, acc, cnt =>
    let separator := if acc = [] then 0 else 1
    if max_chars < cnt + separator + s.length ∧ acc ≠ [] then (acc, j)
    else fillGo max_chars rest (j + 1) (acc ++ [s]) (cnt + separator + s.length)

/-- The forward-fill loop started at sentence index `start` with an
empty chunk (chunking.py lines 94–111). -/
def buildChunk (sentences : List String) (max_chars start : Nat) : List String × Nat :=
  fillGo max_chars (sentences.drop start) start [] 0

/-- Step 2 of `chunk_text` (chunking.py lines 133–160): walk backwards
from `j` collecting overlap sentences until `min_overlap_chars` is
reached, stopping early when the next candidate would push the running
count past `max_overlap_chars`.  The Python loop variable
`overlap_start` equals `chunk_start + n`, so the loop guard
`overlap_start > chunk_start` becomes structural recursion on `n`;
`cnt` is `overlap_char_count`.  Returns the final `overlap_start`. -/
def overlapGo (sentences : List String) (min_overlap_chars max_overlap_chars j chunk_start : Nat) :
    Nat → Nat → Nat
  | 0, _ => chunk_start
  | n + 1, cnt =>
    let candidate_text := sentences.getD (chunk_start + n) ""
    let space := if chunk_start + n + 1 < j then 1 else 0
    let addition := candidate_text.length + space
    if max_overlap_chars < cnt + addition then chunk_start + n + 1
    else if min_overlap_chars ≤ cnt + addition then chunk_start + n
    else overlapGo sentences min_overlap_chars max_overlap_chars j chunk_start n (cnt + addition)

/-- The start index of the next chunk: the backward overlap walk
(started at `overlap_start = j`, `overlap_char_count = 0`) followed by
the forced-progress bump of chunking.py lines 162–172. -/
def nextStart (sentences : List String) (min_overlap_chars max_overlap_chars chunk_start j : Nat) :
    Nat :=
  let ov := overlapGo sentences min_overlap_chars max_overlap_chars j chunk_start
    (j - chunk_start) 0
  if ov ≤ chunk_start then chunk_start + 1 else ov

/-- One outer-loop iteration's chunk construction, including the
`if not chunk_sents` fallback for an oversized first sentence
(chunking.py lines 113–119).  Returns `(chunk_sents, j)`. -/
def chunkStep (sentences : List String) (max_chars start : Nat) : List String × Nat :=
  let fj := buildChunk sentences max_chars start
  if fj.1 = [] then ([sentences.getD start ""], start + 1) else fj

/-- The outer `while chunk_start_idx < len(sentences)` loop of
`chunk_text` (chunking.py lines 88–172), instrumented to record each
chunk's sentence index range `(chunk_start_idx, j)` instead of its
text.  The loop advances `chunk_start_idx` by at least one sentence per
iteration (see `nextStart`), so `sentences.length` iterations of fuel
always suffice; the fuel-exhausted branch is unreachable from
`chunkSpans` below. -/
def chunkSpansGo (sentences : List String)
    (max_chars min_overlap_chars max_overlap_chars : Nat) : Nat → Nat → List (Nat × Nat)
  | 0, _ => []
  | fuel + 1, start =>
    if start < sentences.length then
      let j := (chunkStep sentences max_chars start).2
      if sentences.length ≤ j then [(start, j)]
      else (start, j) :: chunkSpansGo sentences max_chars min_overlap_chars max_overlap_chars fuel
        (nextStart sentences min_overlap_chars max_overlap_chars start j)
    else []

/-- The sentence index ranges of the chunks produced by the main loop of
`chunk_text`, starting from `chunk_start_idx = 0`. -/
def chunkSpans (sentences : List String)
    (max_chars min_overlap_chars max_overlap_chars : Nat) : List (Nat × Nat) :=
  chunkSpansGo sentences max_chars min_overlap_chars max_overlap_chars sentences.length 0

/-- The outer loop of `chunk_text` (chunking.py lines 82–174) producing
the chunk strings `" ".join(chunk_sents)`, exactly parallel to
`chunkSpansGo`. -/
def chunksGo (sentences : List String)
    (max_chars min_overlap_chars max_overlap_chars : Nat) : Nat → Nat → List String
  | 0, _ => []
  | fuel + 1, start =>
    if start < sentences.length then
      let cj := chunkStep sentences max_chars start
      if sentences.length ≤ cj.2 then [joinSp cj.1]
      else joinSp cj.1 :: chunksGo sentences max_chars min_overlap_chars max_overlap_chars fuel
        (nextStart sentences min_overlap_chars max_overlap_chars start cj.2)
    else []

/-- `chunk_text(text, max_chars, min_overlap_chars, max_overlap_chars)`
(chunking.py lines 46–174).  `sentences` stands for the result of
`sent_tokenize(text)`, the external nltk sentence segmenter, which is
passed in explicitly; theorems that depend on the segmenter's
documented behaviour (it returns `[]` exactly when the stripped text is
empty) state that contract as a hypothesis. -/
def chunk_text (text : String) (sentences : List String)
    (max_chars min_overlap_chars max_overlap_chars : Nat) : List String :=
  if sentences = [] then
    if pyStrip text = "" then [] else [pyStrip text]
  else if text.length ≤ max_chars then [text]
  else chunksGo sentences max_chars min_overlap_chars max_overlap_chars sentences.length 0

/-- The "new" sentence run of each chunk: the sentences of the chunk
beyond the overlap inherited from its predecessor.  `prev` is the
predecessor chunk's end index (for the first chunk, its own start, so
its whole range is new). -/
def newRuns (sentences : List String) : Nat → List (Nat × Nat) → List (List String)
  | _, [] => []
  | prev, p :: rest => slice sentences prev p.2 :: newRuns sentences p.2 rest

/-- The "new" suffix of each chunk's **text**: the chunk string minus
the character span of the overlap prefix inherited from the
predecessor (for the first chunk, the whole string). -/
def newSuffixStrings (sentences : List String) : Nat → List (Nat × Nat) → List String
  | _, [] => []
  | prev, p :: rest =>
    (joinSp (slice sentences p.1 p.2)).drop (joinSp (slice sentences p.1 prev)).length
      :: newSuffixStrings sentences p.2 rest

/-- Adjacent pairs `(chunk i, chunk i+1)` of a span list. -/
def adjPairs (l : List (Nat × Nat)) : List ((Nat × Nat) × (Nat × Nat)) :=
  l.zip l.tail

/-! ### vector_search.py -/

/-- One row of the `note_chunks` table: the persisted chunk with its
denormalised scoping columns (vector_search.py lines 70–88).
`created_at` is a timestamp in seconds, `embedding` is `none` for a row
whose embedding pass has not run (`NULL`). -/
structure NoteChunkRow where
  id : Nat
  note_id : Nat
  chunk_index : Nat
  chunk_text : String
  created_at : Nat
  note_type : Option String
  caseworker_name : Option String
  case_id : Nat
  embedding : Option (List ℚ)
deriving DecidableEq

/-- One result dict of `find_similar_chunks` (vector_search.py
lines 105–117). -/
structure RetrievedChunk where
  chunk_id : Nat
  note_id : Nat
  chunk_index : Nat
  chunk_text : String
  created_at : Nat
  note_type : Option String
  caseworker_name : Option String
  similarity : ℚ
deriving DecidableEq

/-- `settings.TOP_K` (core/config.py line 46). -/
def TOP_K : Nat := 6

/-- A date, counted in days; `created_at >= :start_date` compares the
timestamp against the date's midnight. -/
def dateToTimestamp (d : Nat) : Nat := d * 86400

/-- `datetime.combine(end_date, time(23, 59, 59))` (vector_search.py
line 98): the end-of-day timestamp of a date. -/
def endOfDay (d : Nat) : Nat := d * 86400 + (23 * 3600 + 59 * 60 + 59)

/-- The `WHERE` clause of the retrieval query (vector_search.py
lines 81–85): same case, within the inclusive date window, embedding
present. -/
def rowMatches (case_id start_date end_date : Nat) (r : NoteChunkRow) : Bool :=
  (r.case_id == case_id)
    && decide (dateToTimestamp start_date ≤ r.created_at)
    && decide (r.created_at ≤ endOfDay end_date)
    && r.embedding.isSome

/-- The rows of the table satisfying the `WHERE` clause. -/
def matchingRows (rows : List NoteChunkRow) (case_id start_date end_date : Nat) :
    List NoteChunkRow :=
  rows.filter (rowMatches case_id start_date end_date)

/-- The sort key `embedding <=> (:query_vec)::vector` of the `ORDER BY`
clause.  `dist` is pgvector's cosine-distance operator, an external
collaborator, passed in abstractly. -/
def distKey (dist : List ℚ → List ℚ → ℚ) (qv : List ℚ) (r : NoteChunkRow) : ℚ :=
  dist (r.embedding.getD []) qv

/-- The matching rows ordered by ascending distance to the query vector
(the `ORDER BY` clause; ties in the index's unspecified natural
order). -/
def sortedMatches (dist : List ℚ → List ℚ → ℚ) (rows : List NoteChunkRow)
    (case_id start_date end_date : Nat) (qv : List ℚ) : List NoteChunkRow :=
  List.insertionSort (fun a b => distKey dist qv a ≤ distKey dist qv b)
    (matchingRows rows case_id start_date end_date)

/-- The result dict built from a row (vector_search.py lines 105–115):
`1 - (embedding <=> query)` converts cosine distance to similarity. -/
def toRetrieved (dist : List ℚ → List ℚ → ℚ) (qv : List ℚ) (r : NoteChunkRow) : RetrievedChunk :=
  { chunk_id := r.id
    note_id := r.note_id
    chunk_index := r.chunk_index
    chunk_text := r.chunk_text
    created_at := r.created_at
    note_type := r.note_type
    caseworker_name := r.caseworker_name
    similarity := 1 - distKey dist qv r }

/-- `find_similar_chunks(db, case_id, start_date, end_date,
query_vector)` (vector_search.py lines 34–117), read denotationally:
filter by the `WHERE` clause, order by distance, `LIMIT TOP_K`, build
the result dicts. -/
def find_similar_chunks (dist : List ℚ → List ℚ → ℚ) (rows : List NoteChunkRow)
    (case_id start_date end_date : Nat) (qv : List ℚ) : List RetrievedChunk :=
  ((sortedMatches dist rows case_id start_date end_date qv).take TOP_K).map (toRetrieved dist qv)

/-! ### embedding.py -/

/-- `BGE_QUERY_PREFIX` (embedding.py line 38). -/
def BGE_QUERY_PREFIX : String :=
  "Represent this sentence for searching relevant passages: "

/-- The two response shapes of the HF feature-extraction endpoint
(embedding.py lines 90–92): `[batch, dims]` or `[batch, tokens, dims]`. -/
inductive HFResponse where
  | flat (vectors : List (List ℚ))
  | tokens (vectors : List (List (List ℚ)))

/-- Shape normalisation of `_call_hf_api` (embedding.py lines 93–96):
a 3-D response is reduced to the first (CLS) token vector per item. -/
def hfResponseVectors : HFResponse → List (List ℚ)
  | .flat r => r
  | .tokens r => r.map (fun item => item.headD [])

/-- `_call_hf_api(texts)` (embedding.py lines 51–98): POST `texts` to
the endpoint and normalise the response shape.  `api` is the external
HF inference service (the retry-on-503 transport loop is I/O and not
part of the value-level behaviour). -/
def call_hf_api (api : List String → HFResponse) (texts : List String) : List (List ℚ) :=
  hfResponseVectors (api texts)

/-- `embed_documents(texts)` (embedding.py lines 104–116): embed
document strings with no prefix added. -/
def embed_documents (api : List String → HFResponse) (texts : List String) : List (List ℚ) :=
  call_hf_api api texts

/-- `embed_query(query)` (embedding.py lines 119–132): embed the single
query with the BGE retrieval instruction prepended, returning the first
(only) vector. -/
def embed_query (api : List String → HFResponse) (query : String) : List ℚ :=
  (call_hf_api api [BGE_QUERY_PREFIX ++ query]).headD []

/-! ### llm.py -/

/-- A `ChatMessage` row as passed to `generate_answer`:
`{"role": "user"|"assistant", "content": ...}`. -/
structure ChatMessage where
  role : String
  content : String
deriving DecidableEq

/-- A google-generativeai `Content` item:
`{"role": ..., "parts": [...]}`. -/
structure GeminiContent where
  role : String
  parts : List String
deriving DecidableEq

/-- `MAX_HISTORY_TURNS` (llm.py line 84). -/
def MAX_HISTORY_TURNS : Nat := 10

/-- A retrieved-note dict as consumed by `generate_answer`
(llm.py lines 113–126); `created_at` carries the
`(year, month, day)` the label's `strftime("%Y-%m-%d")` displays. -/
structure RetrievedNoteView where
  chunk_text : String
  created_at : Nat × Nat × Nat
  note_type : Option String
  caseworker_name : Option String
deriving DecidableEq

/-- Zero-pad a number to two digits (strftime `%m`, `%d`). -/
def pad2 (n : Nat) : String :=
  if n < 10 then "0" ++ toString n else toString n

/-- Zero-pad a number to four digits (strftime `%Y`). -/
def pad4 (n : Nat) : String :=
  if n < 10 then "000" ++ toString n
  else if n < 100 then "00" ++ toString n
  else if n < 1000 then "0" ++ toString n
  else toString n

/-- `ts.strftime("%Y-%m-%d")` (llm.py line 121). -/
def strftimeYmd (d : Nat × Nat × Nat) : String :=
  pad4 d.1 ++ "-" ++ pad2 d.2.1 ++ "-" ++ pad2 d.2.2

/-- Python `x or default` on an optional string field: `None` and the
empty string both fall back to the default (llm.py lines 122–123). -/
def orElseStr (o : Option String) (dflt : String) : String :=
  match o with
  | none => dflt
  | some s => if s = "" then dflt else s

/-- One context line
`f"[{date_str}, {note_type}, {cw}]:\n{note['chunk_text']}\n"`
(llm.py lines 124–126). -/
def noteLine (note : RetrievedNoteView) : String :=
  "[" ++ strftimeYmd note.created_at ++ ", " ++ orElseStr note.note_type "unknown" ++ ", "
    ++ orElseStr note.caseworker_name "unknown caseworker" ++ "]:\n" ++ note.chunk_text ++ "\n"

/-- The context block (llm.py lines 113–132): the labelled excerpts, or
the explicit no-excerpts marker when retrieval returned nothing. -/
def contextBlock (retrieved_notes : List RetrievedNoteView) : String :=
  if retrieved_notes = [] then
    "No case note excerpts were found for this question within the selected date window."
  else
    String.intercalate "\n"
      ("**Relevant case note excerpts:**\n" :: retrieved_notes.map noteLine)

/-- `full_user_message` (llm.py line 135). -/
def fullUserMessage (user_question : String) (retrieved_notes : List RetrievedNoteView) : String :=
  contextBlock retrieved_notes ++ "\n\n**Question:** " ++ user_question

/-- Role translation of llm.py line 144: google-generativeai uses
`"model"`, not `"assistant"`. -/
def toGeminiMessage (m : ChatMessage) : GeminiContent :=
  { role := if m.role = "assistant" then "model" else "user", parts := [m.content] }

/-- `prior_messages[-(MAX_HISTORY_TURNS * 2):]` (llm.py line 140): the
most recent `2 * MAX_HISTORY_TURNS` messages. -/
def historyMessages (prior_messages : List ChatMessage) : List ChatMessage :=
  prior_messages.drop (prior_messages.length - MAX_HISTORY_TURNS * 2)

/-- The `contents` list `generate_answer` sends to Gemini (llm.py
lines 137–152): the truncated, role-translated history followed by the
current user turn carrying the context block and the question. -/
def generateContents (user_question : String) (retrieved_notes : List RetrievedNoteView)
    (prior_messages : List ChatMessage) : List GeminiContent :=
  (historyMessages prior_messages).map toGeminiMessage
    ++ [{ role := "user", parts := [fullUserMessage user_question retrieved_notes] }]

/-- A turn-pair (one user turn plus the assistant reply) flattened into
the `ChatMessage` rows `generate_answer` receives. -/
def turnPairMessages (p : String × String) : List ChatMessage :=
  [{ role := "user", content := p.1 }, { role := "assistant", content := p.2 }]

/-! ### Concrete example inputs used by witnesses and counterexamples -/

/-- Five sentences of lengths 10, 12, 4, 10, 10.  With
`max_chars = 30`, `min_overlap_chars = 10`, `max_overlap_chars = 15`
the first chunk is sentences 0–2 and the backward walk stops at 4
overlap characters (adding sentence 1 would cost 13 more and burst the
cap), well below the floor of 10, although plenty of input remains. -/
def exC1 : List String :=
  ["aaaaaaaaaa", "bbbbbbbbbbbb", "cccc", "dddddddddd", "eeeeeeeeee"]

/-- Three sentences of lengths 4, 5, 4.  With `max_chars = 10`,
`min_overlap_chars = 3`, `max_overlap_chars = 4` the backward walk
after the first chunk takes nothing (the candidate costs 5 > 4), so the
second chunk inherits an empty overlap. -/
def exC2 : List String := ["aaaa", "bbbbb", "cccc"]

/-- A `note_chunks` row of case 7 with a present embedding, timestamped
inside day 10. -/
def exRow : NoteChunkRow :=
  { id := 1
    note_id := 2
    chunk_index := 0
    chunk_text := "Visited the family home."
    created_at := 10 * 86400 + 5
    note_type := some "in-person"
    caseworker_name := some "Robert Hayes"
    case_id := 7
    embedding := some [1] }

/-- Eleven conversation turn-pairs — one more than
`MAX_HISTORY_TURNS`. -/
def exPairs : List (String × String) :=
  [("u1", "a1"), ("u2", "a2"), ("u3", "a3"), ("u4", "a4"), ("u5", "a5"), ("u6", "a6"),
   ("u7", "a7"), ("u8", "a8"), ("u9", "a9"), ("u10", "a10"), ("u11", "a11")]

/-! ### Lemmas about space-joining and slices -/

theorem joinLen_eq (l : List String) :
    joinLen l = (l.map String.length).sum + (l.length - 1) := by
  induction l with
  | nil => rfl
  | cons a t ih =>
    cases t with
    | nil => simp [joinLen]
    | cons b r =>
      simp only [joinLen, ih, List.map_cons, List.sum_cons, List.length_cons]
      omega

theorem joinSp_length : ∀ l : List String, (joinSp l).length = joinLen l
  | [] => rfl
  | [s] => rfl
  | s :: t :: r => by
    have ih := joinSp_length (t :: r)
    have hsp : (" " : String).length = 1 := rfl
    simp only [joinSp, joinLen, String.length_append, hsp]
    omega

theorem joinLen_cons (s : String) (l : List String) :
    joinLen (s :: l) = s.length + (if l = [] then 0 else 1) + joinLen l := by
  cases l <;> simp [joinLen]

theorem joinLen_snoc (l : List String) (s : String) :
    joinLen (l ++ [s]) = joinLen l + (if l = [] then 0 else 1) + s.length := by
  rcases l with _ | ⟨a, t⟩
  · simp [joinLen]
  · simp only [joinLen_eq, List.append_eq, List.map_append, List.sum_append, List.map_cons,
      List.length_append, List.length_cons, List.map_nil, List.sum_cons, List.sum_nil,
      List.length_nil, if_neg (List.cons_ne_nil a t)]
    omega

theorem joinLen_le_append (xs ys : List String) : joinLen xs ≤ joinLen (xs ++ ys) := by
  simp only [joinLen_eq, List.map_append, List.sum_append, List.length_append]
  have : 0 ≤ (ys.map String.length).sum := Nat.zero_le _
  omega

theorem joinLen_tail_le (a : String) (l : List String) : joinLen l ≤ joinLen (a :: l) := by
  simp only [joinLen_eq, List.map_cons, List.sum_cons, List.length_cons]
  omega

theorem slice_self (l : List String) (a : Nat) : slice l a a = [] := by
  simp [slice]

theorem length_slice (l : List String) {a b : Nat} (hab : a ≤ b) (hb : b ≤ l.length) :
    (slice l a b).length = b - a := by
  simp only [slice, List.length_take, List.length_drop]
  omega

theorem slice_cons (l : List String) {a b : Nat} (hab : a < b) (hb : b ≤ l.length) :
    slice l a b = l.getD a "" :: slice l (a + 1) b := by
  have ha : a < l.length := lt_of_lt_of_le hab hb
  have h1 : l.drop a = l[a] :: l.drop (a + 1) := List.drop_eq_getElem_cons ha
  have h2 : b - a = (b - (a + 1)) + 1 := by omega
  rw [slice, slice, h1, h2, List.take_succ_cons, List.getD_eq_getElem l "" ha]

theorem slice_append (l : List String) {a b c : Nat} (hab : a ≤ b) (hbc : b ≤ c) :
    slice l a b ++ slice l b c = slice l a c := by
  have h1 : c - a = (b - a) + (c - b) := by omega
  have h2 : (l.drop a).drop (b - a) = l.drop b := by
    rw [List.drop_drop]
    congr 1
    omega
  rw [slice, slice, slice, h1, List.take_add, h2]

theorem mem_slice {l : List String} {a b : Nat} {x : String} (h : x ∈ slice l a b) : x ∈ l :=
  List.mem_of_mem_drop (List.mem_of_mem_take h)

theorem slice_zero_length (l : List String) : slice l 0 l.length = l := by
  simp [slice]


/-! ### Lemmas about the forward fill (Step 1) -/

theorem fillGo_nil (max_chars j : Nat) (acc : List String) (cnt : Nat) :
    fillGo max_chars [] j acc cnt = (acc, j) := rfl

theorem fillGo_cons (max_chars : Nat) (s : String) (rest : List String) (j : Nat)
    (acc : List String) (cnt : Nat) :
    fillGo max_chars (s :: rest) j acc cnt =
      if max_chars < cnt + (if acc = [] then 0 else 1) + s.length ∧ acc ≠ [] then (acc, j)
      else fillGo max_chars rest (j + 1) (acc ++ [s])
        (cnt + (if acc = [] then 0 else 1) + s.length) := rfl

theorem fillGo_shape (max_chars : Nat) :
    ∀ (rem : List String) (j : Nat) (acc : List String) (cnt : Nat),
      ∃ k, k ≤ rem.length ∧ fillGo max_chars rem j acc cnt = (acc ++ rem.take k, j + k)
  | [], j, acc, cnt => ⟨0, by simp [fillGo_nil]⟩
  | s :: rest, j, acc, cnt => by
    by_cases h : max_chars < cnt + (if acc = [] then 0 else 1) + s.length ∧ acc ≠ []
    · refine ⟨0, Nat.zero_le _, ?_⟩
      rw [fillGo_cons, if_pos h]
      simp
    · obtain ⟨k, hk, heq⟩ :=
        fillGo_shape max_chars rest (j + 1) (acc ++ [s])
          (cnt + (if acc = [] then 0 else 1) + s.length)
      refine ⟨k + 1, by simpa using hk, ?_⟩
      rw [fillGo_cons, if_neg h, heq, Prod.mk.injEq]
      refine ⟨?_, by omega⟩
      rw [List.take_succ_cons, List.append_assoc, List.singleton_append]

theorem fillGo_ne_nil (max_chars : Nat) :
    ∀ (rem : List String) (j : Nat) (acc : List String) (cnt : Nat),
      acc ≠ [] ∨ rem ≠ [] → (fillGo max_chars rem j acc cnt).1 ≠ []
  | [], j, acc, cnt, h => by
    rw [fillGo_nil]
    exact h.resolve_right (by simp)
  | s :: rest, j, acc, cnt, h => by
    by_cases hc : max_chars < cnt + (if acc = [] then 0 else 1) + s.length ∧ acc ≠ []
    · rw [fillGo_cons, if_pos hc]
      exact hc.2
    · rw [fillGo_cons, if_neg hc]
      exact fillGo_ne_nil max_chars rest (j + 1) (acc ++ [s])
        (cnt + (if acc = [] then 0 else 1) + s.length) (Or.inl (by simp))

theorem fillGo_bound (max_chars : Nat) :
    ∀ (rem : List String) (j : Nat) (acc : List String) (cnt : Nat),
      cnt = joinLen acc →
      (joinLen acc ≤ max_chars ∨ ∃ s, acc = [s] ∧ max_chars < s.length) →
      (joinLen (fillGo max_chars rem j acc cnt).1 ≤ max_chars ∨
        ∃ s, (fillGo max_chars rem j acc cnt).1 = [s] ∧ max_chars < s.length)
  | [], j, acc, cnt, hcnt, hinv => by
    rw [fillGo_nil]
    exact hinv
  | s :: rest, j, acc, cnt, hcnt, hinv => by
    by_cases hc : max_chars < cnt + (if acc = [] then 0 else 1) + s.length ∧ acc ≠ []
    · rw [fillGo_cons, if_pos hc]
      exact hinv
    · rw [fillGo_cons, if_neg hc]
      have hsnoc : joinLen (acc ++ [s]) = cnt + (if acc = [] then 0 else 1) + s.length := by
        rw [joinLen_snoc, hcnt]
      have hinv2 : joinLen (acc ++ [s]) ≤ max_chars ∨
          ∃ u, acc ++ [s] = [u] ∧ max_chars < u.length := by
        rcases eq_or_ne acc [] with hacc | hacc
        · subst hacc
          by_cases hs : s.length ≤ max_chars
          · left
            simpa [joinLen] using hs
          · right
            exact ⟨s, by simp, by omega⟩
        · left
          have hle : cnt + (if acc = [] then 0 else 1) + s.length ≤ max_chars := by
            rcases Nat.lt_or_ge max_chars (cnt + (if acc = [] then 0 else 1) + s.length) with
              hlt | hge
            · exact absurd ⟨hlt, hacc⟩ hc
            · exact hge
          omega
      exact fillGo_bound max_chars rest (j + 1) (acc ++ [s])
        (cnt + (if acc = [] then 0 else 1) + s.length) hsnoc.symm hinv2

theorem fillGo_reaches (max_chars : Nat) :
    ∀ (rem : List String) (j : Nat) (acc : List String) (cnt : Nat) (t : Nat),
      cnt = joinLen acc → t - j ≤ rem.length →
      joinLen (acc ++ rem.take (t - j)) ≤ max_chars →
      t ≤ (fillGo max_chars rem j acc cnt).2
  | [], j, acc, cnt, t, hcnt, hlen, hb => by
    rw [fillGo_nil]
    show t ≤ j
    simp only [List.length_nil] at hlen
    omega
  | s :: rest, j, acc, cnt, t, hcnt, hlen, hb => by
    rcases le_or_lt t j with hjt | hjt
    · obtain ⟨k, _, heq⟩ := fillGo_shape max_chars (s :: rest) j acc cnt
      rw [heq]
      show t ≤ j + k
      omega
    · have htj : t - j = (t - (j + 1)) + 1 := by omega
      have htake : (s :: rest).take (t - j) = s :: rest.take (t - (j + 1)) := by
        rw [htj, List.take_succ_cons]
      have h1 : joinLen (acc ++ [s]) = cnt + (if acc = [] then 0 else 1) + s.length := by
        rw [joinLen_snoc, hcnt]
      have h3 : (acc ++ [s]) ++ rest.take (t - (j + 1)) = acc ++ (s :: rest).take (t - j) := by
        rw [htake, List.append_assoc, List.singleton_append]
      have h2 : joinLen (acc ++ [s]) ≤ joinLen (acc ++ (s :: rest).take (t - j)) := by
        rw [← h3]
        exact joinLen_le_append _ _
      have hX : cnt + (if acc = [] then 0 else 1) + s.length ≤ max_chars := by omega
      have hnotbreak :
          ¬ (max_chars < cnt + (if acc = [] then 0 else 1) + s.length ∧ acc ≠ []) :=
        fun hcontra => absurd hcontra.1 (Nat.not_lt.mpr hX)
      rw [fillGo_cons, if_neg hnotbreak]
      exact fillGo_reaches max_chars rest (j + 1) (acc ++ [s])
        (cnt + (if acc = [] then 0 else 1) + s.length) t h1.symm (by
          simp only [List.length_cons] at hlen
          omega) (by rw [h3]; exact hb)

/-! ### Lemmas about one outer-loop iteration -/

theorem buildChunk_ne_nil (sentences : List String) (max_chars start : Nat)
    (h : start < sentences.length) : (buildChunk sentences max_chars start).1 ≠ [] := by
  refine fillGo_ne_nil max_chars (sentences.drop start) start [] 0 (Or.inr ?_)
  rw [Ne, List.drop_eq_nil_iff]
  omega

theorem chunkStep_eq_buildChunk (sentences : List String) (max_chars start : Nat)
    (h : start < sentences.length) :
    chunkStep sentences max_chars start = buildChunk sentences max_chars start := by
  rw [chunkStep, if_neg (buildChunk_ne_nil sentences max_chars start h)]

theorem chunkStep_spec (sentences : List String) (max_chars start : Nat)
    (h : start < sentences.length) :
    (chunkStep sentences max_chars start).1
        = slice sentences start (chunkStep sentences max_chars start).2
      ∧ start < (chunkStep sentences max_chars start).2
      ∧ (chunkStep sentences max_chars start).2 ≤ sentences.length := by
  rw [chunkStep_eq_buildChunk sentences max_chars start h]
  obtain ⟨k, hk, heq⟩ := fillGo_shape max_chars (sentences.drop start) start [] 0
  have hne := buildChunk_ne_nil sentences max_chars start h
  rw [buildChunk] at hne ⊢
  rw [heq] at hne ⊢
  have hkpos : 0 < k := by
    rcases Nat.eq_zero_or_pos k with h0 | hpos
    · subst h0
      simp at hne
    · exact hpos
  have hdl : (sentences.drop start).length = sentences.length - start := List.length_drop ..
  refine ⟨?_, by show start < start + k; omega, by show start + k ≤ sentences.length; omega⟩
  show [] ++ (sentences.drop start).take k = slice sentences start (start + k)
  rw [List.nil_append, slice]
  congr 1
  omega

theorem chunkStep_bound (sentences : List String) (max_chars start : Nat)
    (h : start < sentences.length) :
    joinLen (chunkStep sentences max_chars start).1 ≤ max_chars
      ∨ ∃ s, (chunkStep sentences max_chars start).1 = [s] ∧ max_chars < s.length := by
  rw [chunkStep_eq_buildChunk sentences max_chars start h, buildChunk]
  exact fillGo_bound max_chars (sentences.drop start) start [] 0 rfl
    (Or.inl (Nat.zero_le _))

theorem chunkStep_reaches (sentences : List String) (max_chars start t : Nat)
    (h : start < sentences.length) (hst : start ≤ t) (htl : t ≤ sentences.length)
    (hb : joinLen (slice sentences start t) ≤ max_chars) :
    t ≤ (chunkStep sentences max_chars start).2 := by
  rw [chunkStep_eq_buildChunk sentences max_chars start h, buildChunk]
  refine fillGo_reaches max_chars (sentences.drop start) start [] 0 t rfl ?_ ?_
  · rw [List.length_drop]
    omega
  · rw [List.nil_append]
    exact hb

/-! ### Lemmas about the backward overlap walk (Step 2) -/


theorem overlapGo_zero (sentences : List String)
    (min_overlap_chars max_overlap_chars j chunk_start cnt : Nat) :
    overlapGo sentences min_overlap_chars max_overlap_chars j chunk_start 0 cnt
      = chunk_start := rfl

theorem overlapGo_succ (sentences : List String)
    (min_overlap_chars max_overlap_chars j chunk_start n cnt : Nat) :
    overlapGo sentences min_overlap_chars max_overlap_chars j chunk_start (n + 1) cnt
      = (if max_overlap_chars < cnt + ((sentences.getD (chunk_start + n) "").length
            + (if chunk_start + n + 1 < j then 1 else 0)) then chunk_start + n + 1
        else if min_overlap_chars ≤ cnt + ((sentences.getD (chunk_start + n) "").length
            + (if chunk_start + n + 1 < j then 1 else 0)) then chunk_start + n
        else overlapGo sentences min_overlap_chars max_overlap_chars j chunk_start n
          (cnt + ((sentences.getD (chunk_start + n) "").length
            + (if chunk_start + n + 1 < j then 1 else 0)))) := rfl

theorem overlapGo_spec (sentences : List String)
    (min_overlap_chars max_overlap_chars j chunk_start : Nat) (hj : j ≤ sentences.length) :
    ∀ (n cnt : Nat), chunk_start + n ≤ j →
      cnt = joinLen (slice sentences (chunk_start + n) j) → cnt ≤ max_overlap_chars →
      chunk_start ≤ overlapGo sentences min_overlap_chars max_overlap_chars j chunk_start n cnt
      ∧ overlapGo sentences min_overlap_chars max_overlap_chars j chunk_start n cnt
          ≤ chunk_start + n
      ∧ joinLen (slice sentences
          (overlapGo sentences min_overlap_chars max_overlap_chars j chunk_start n cnt) j)
        ≤ max_overlap_chars
  | 0, cnt, h1, h2, h3 => by
    rw [overlapGo_zero]
    have h2' : cnt = joinLen (slice sentences chunk_start j) := h2
    exact ⟨le_refl _, by omega, by omega⟩
  | n + 1, cnt, h1, h2, h3 => by
    have h1' : chunk_start + n + 1 ≤ j := h1
    have h2' : cnt = joinLen (slice sentences (chunk_start + n + 1) j) := h2
    have hlt : chunk_start + n < j := by omega
    have hcons : slice sentences (chunk_start + n) j
        = sentences.getD (chunk_start + n) "" :: slice sentences (chunk_start + n + 1) j :=
      slice_cons sentences hlt hj
    have hnil : slice sentences (chunk_start + n + 1) j = [] ↔ ¬ (chunk_start + n + 1 < j) := by
      constructor
      · intro hn hcon
        have := length_slice sentences (le_of_lt hcon) hj
        rw [hn] at this
        simp at this
        omega
      · intro hn
        have hz : j - (chunk_start + n + 1) = 0 := by omega
        rw [slice, hz]
        simp
    have hjoin : joinLen (slice sentences (chunk_start + n) j)
        = cnt + ((sentences.getD (chunk_start + n) "").length
            + (if chunk_start + n + 1 < j then 1 else 0)) := by
      rw [hcons, joinLen_cons, h2']
      by_cases hsp : chunk_start + n + 1 < j
      · rw [if_pos hsp, if_neg (fun hcon => (hnil.mp hcon) hsp)]
        omega
      · rw [if_neg hsp, if_pos (hnil.mpr hsp)]
        omega
    rw [overlapGo_succ]
    by_cases hcap : max_overlap_chars
        < cnt + ((sentences.getD (chunk_start + n) "").length
            + (if chunk_start + n + 1 < j then 1 else 0))
    · rw [if_pos hcap]
      exact ⟨by omega, by omega, by omega⟩
    · rw [if_neg hcap]
      by_cases hfloor : min_overlap_chars
          ≤ cnt + ((sentences.getD (chunk_start + n) "").length
              + (if chunk_start + n + 1 < j then 1 else 0))
      · rw [if_pos hfloor]
        exact ⟨by omega, by omega, by omega⟩
      · rw [if_neg hfloor]
        have hrec := overlapGo_spec sentences min_overlap_chars max_overlap_chars j
          chunk_start hj n
          (cnt + ((sentences.getD (chunk_start + n) "").length
            + (if chunk_start + n + 1 < j then 1 else 0)))
          (by omega) (by omega) (by omega)
        exact ⟨hrec.1, by omega, hrec.2.2⟩

theorem nextStart_spec (sentences : List String)
    (min_overlap_chars max_overlap_chars chunk_start j : Nat)
    (hj : j ≤ sentences.length) (hcs : chunk_start < j) :
    chunk_start < nextStart sentences min_overlap_chars max_overlap_chars chunk_start j
    ∧ nextStart sentences min_overlap_chars max_overlap_chars chunk_start j ≤ j
    ∧ joinLen (slice sentences
        (nextStart sentences min_overlap_chars max_overlap_chars chunk_start j) j)
      ≤ max_overlap_chars := by
  have hcj : chunk_start + (j - chunk_start) = j := by omega
  have base := overlapGo_spec sentences min_overlap_chars max_overlap_chars j chunk_start hj
    (j - chunk_start) 0 (by omega) (by rw [hcj, slice_self]; rfl) (Nat.zero_le _)
  rw [hcj] at base
  obtain ⟨hge, hle, hov⟩ := base
  rw [nextStart]
  by_cases hbump : overlapGo sentences min_overlap_chars max_overlap_chars j chunk_start
      (j - chunk_start) 0 ≤ chunk_start
  · rw [if_pos hbump]
    have hoveq : overlapGo sentences min_overlap_chars max_overlap_chars j chunk_start
        (j - chunk_start) 0 = chunk_start := le_antisymm hbump hge
    rw [hoveq] at hov
    refine ⟨by omega, by omega, ?_⟩
    calc joinLen (slice sentences (chunk_start + 1) j)
        ≤ joinLen (slice sentences chunk_start j) := by
          rw [slice_cons sentences hcs hj]
          exact joinLen_tail_le _ _
      _ ≤ max_overlap_chars := hov
  · rw [if_neg hbump]
    exact ⟨by omega, hle, hov⟩

/-! ### Lemmas about the outer loop -/

theorem chunkSpansGo_zero (sentences : List String) (maxc minov maxov start : Nat) :
    chunkSpansGo sentences maxc minov maxov 0 start = [] := rfl

theorem chunkSpansGo_succ (sentences : List String) (maxc minov maxov fuel start : Nat) :
    chunkSpansGo sentences maxc minov maxov (fuel + 1) start =
      if start < sentences.length then
        (if sentences.length ≤ (chunkStep sentences maxc start).2
          then [(start, (chunkStep sentences maxc start).2)]
          else (start, (chunkStep sentences maxc start).2) ::
            chunkSpansGo sentences maxc minov maxov fuel
              (nextStart sentences minov maxov start (chunkStep sentences maxc start).2))
      else [] := rfl

theorem chunksGo_zero (sentences : List String) (maxc minov maxov start : Nat) :
    chunksGo sentences maxc minov maxov 0 start = [] := rfl

theorem chunksGo_succ (sentences : List String) (maxc minov maxov fuel start : Nat) :
    chunksGo sentences maxc minov maxov (fuel + 1) start =
      if start < sentences.length then
        (if sentences.length ≤ (chunkStep sentences maxc start).2
          then [joinSp (chunkStep sentences maxc start).1]
          else joinSp (chunkStep sentences maxc start).1 ::
            chunksGo sentences maxc minov maxov fuel
              (nextStart sentences minov maxov start (chunkStep sentences maxc start).2))
      else [] := rfl

theorem chunkSpansGo_head (sentences : List String) (maxc minov maxov : Nat) :
    ∀ (fuel start : Nat) (q : Nat × Nat),
      (chunkSpansGo sentences maxc minov maxov fuel start).head? = some q →
      q = (start, (chunkStep sentences maxc start).2) ∧ start < sentences.length
  | 0, start, q, h => by
    rw [chunkSpansGo_zero] at h
    simp at h
  | fuel + 1, start, q, h => by
    rw [chunkSpansGo_succ] at h
    by_cases hs : start < sentences.length
    · rw [if_pos hs] at h
      refine ⟨?_, hs⟩
      by_cases hj : sentences.length ≤ (chunkStep sentences maxc start).2
      · rw [if_pos hj] at h
        simp only [List.head?_cons, Option.some.injEq] at h
        exact h.symm
      · rw [if_neg hj] at h
        simp only [List.head?_cons, Option.some.injEq] at h
        exact h.symm
    · rw [if_neg hs] at h
      simp at h

theorem chunkSpansGo_mem (sentences : List String) (maxc minov maxov : Nat) :
    ∀ (fuel start : Nat) (p : Nat × Nat),
      p ∈ chunkSpansGo sentences maxc minov maxov fuel start →
      p.1 < p.2 ∧ p.2 ≤ sentences.length ∧
        (joinLen (slice sentences p.1 p.2) ≤ maxc ∨
          ∃ s, slice sentences p.1 p.2 = [s] ∧ maxc < s.length)
  | 0, start, p, h => by
    rw [chunkSpansGo_zero] at h
    simp at h
  | fuel + 1, start, p, h => by
    rw [chunkSpansGo_succ] at h
    by_cases hs : start < sentences.length
    · rw [if_pos hs] at h
      have hspec := chunkStep_spec sentences maxc start hs
      have hbound := chunkStep_bound sentences maxc start hs
      by_cases hj : sentences.length ≤ (chunkStep sentences maxc start).2
      · rw [if_pos hj] at h
        simp only [List.mem_singleton] at h
        subst h
        refine ⟨hspec.2.1, hspec.2.2, ?_⟩
        show joinLen (slice sentences start (chunkStep sentences maxc start).2) ≤ maxc ∨ _
        rw [← hspec.1]
        exact hbound
      · rw [if_neg hj] at h
        rcases List.mem_cons.mp h with h1 | h2
        · subst h1
          refine ⟨hspec.2.1, hspec.2.2, ?_⟩
          show joinLen (slice sentences start (chunkStep sentences maxc start).2) ≤ maxc ∨ _
          rw [← hspec.1]
          exact hbound
        · exact chunkSpansGo_mem sentences maxc minov maxov fuel _ p h2
    · rw [if_neg hs] at h
      simp at h

theorem chunkSpansGo_chain (sentences : List String) (maxc minov maxov : Nat) :
    ∀ (fuel start : Nat),
      List.Chain' (fun p q : Nat × Nat =>
          p.1 < q.1 ∧ q.1 ≤ p.2 ∧ joinLen (slice sentences q.1 p.2) ≤ maxov)
        (chunkSpansGo sentences maxc minov maxov fuel start)
  | 0, start => by
    rw [chunkSpansGo_zero]
    exact List.chain'_nil
  | fuel + 1, start => by
    rw [chunkSpansGo_succ]
    by_cases hs : start < sentences.length
    · rw [if_pos hs]
      by_cases hj : sentences.length ≤ (chunkStep sentences maxc start).2
      · rw [if_pos hj]
        exact List.chain'_singleton _
      · rw [if_neg hj]
        refine List.chain'_cons'.mpr
          ⟨?_, chunkSpansGo_chain sentences maxc minov maxov fuel _⟩
        intro y hy
        obtain ⟨hyq, _⟩ := chunkSpansGo_head sentences maxc minov maxov fuel _ y hy
        subst hyq
        have hspec := chunkStep_spec sentences maxc start hs
        have hns := nextStart_spec sentences minov maxov start
          (chunkStep sentences maxc start).2 hspec.2.2 hspec.2.1
        exact ⟨hns.1, hns.2.1, hns.2.2⟩
    · rw [if_neg hs]
      exact List.chain'_nil

theorem chunkSpansGo_bmono (sentences : List String) (maxc minov maxov : Nat)
    (hm : maxov ≤ maxc) :
    ∀ (fuel start : Nat),
      List.Chain' (fun p q : Nat × Nat => p.2 ≤ q.2)
        (chunkSpansGo sentences maxc minov maxov fuel start)
  | 0, start => by
    rw [chunkSpansGo_zero]
    exact List.chain'_nil
  | fuel + 1, start => by
    rw [chunkSpansGo_succ]
    by_cases hs : start < sentences.length
    · rw [if_pos hs]
      by_cases hj : sentences.length ≤ (chunkStep sentences maxc start).2
      · rw [if_pos hj]
        exact List.chain'_singleton _
      · rw [if_neg hj]
        refine List.chain'_cons'.mpr
          ⟨?_, chunkSpansGo_bmono sentences maxc minov maxov hm fuel _⟩
        intro y hy
        obtain ⟨hyq, hylt⟩ := chunkSpansGo_head sentences maxc minov maxov fuel _ y hy
        subst hyq
        have hspec := chunkStep_spec sentences maxc start hs
        have hns := nextStart_spec sentences minov maxov start
          (chunkStep sentences maxc start).2 hspec.2.2 hspec.2.1
        show (chunkStep sentences maxc start).2 ≤ _
        exact chunkStep_reaches sentences maxc _ _ hylt hns.2.1 hspec.2.2
          (le_trans hns.2.2 hm)
    · rw [if_neg hs]
      exact List.chain'_nil

theorem chunkSpansGo_ne_nil (sentences : List String) (maxc minov maxov : Nat) :
    ∀ (fuel start : Nat), start < sentences.length → sentences.length ≤ fuel + start →
      chunkSpansGo sentences maxc minov maxov fuel start ≠ []
  | 0, start, hs, hf => by omega
  | fuel + 1, start, hs, hf => by
    rw [chunkSpansGo_succ, if_pos hs]
    by_cases hj : sentences.length ≤ (chunkStep sentences maxc start).2
    · rw [if_pos hj]
      exact List.cons_ne_nil _ _
    · rw [if_neg hj]
      exact List.cons_ne_nil _ _

theorem chunkSpansGo_getLast (sentences : List String) (maxc minov maxov : Nat) :
    ∀ (fuel start : Nat) (p : Nat × Nat), sentences.length ≤ fuel + start →
      (chunkSpansGo sentences maxc minov maxov fuel start).getLast? = some p →
      p.2 = sentences.length
  | 0, start, p, hf, h => by
    rw [chunkSpansGo_zero] at h
    simp at h
  | fuel + 1, start, p, hf, h => by
    rw [chunkSpansGo_succ] at h
    by_cases hs : start < sentences.length
    · rw [if_pos hs] at h
      have hspec := chunkStep_spec sentences maxc start hs
      by_cases hj : sentences.length ≤ (chunkStep sentences maxc start).2
      · rw [if_pos hj] at h
        simp only [List.getLast?_singleton, Option.some.injEq] at h
        subst h
        show (chunkStep sentences maxc start).2 = sentences.length
        omega
      · rw [if_neg hj] at h
        have hns := nextStart_spec sentences minov maxov start
          (chunkStep sentences maxc start).2 hspec.2.2 hspec.2.1
        have hnslt : nextStart sentences minov maxov start (chunkStep sentences maxc start).2
            < sentences.length := by omega
        have hrest_ne : chunkSpansGo sentences maxc minov maxov fuel
            (nextStart sentences minov maxov start (chunkStep sentences maxc start).2) ≠ [] :=
          chunkSpansGo_ne_nil sentences maxc minov maxov fuel _ hnslt (by omega)
        obtain ⟨y, ys, hys⟩ := List.exists_cons_of_ne_nil hrest_ne
        rw [hys, List.getLast?_cons_cons] at h
        exact chunkSpansGo_getLast sentences maxc minov maxov fuel
          (nextStart sentences minov maxov start (chunkStep sentences maxc start).2) p
          (by omega) (by rw [hys]; exact h)
    · rw [if_neg hs] at h
      simp at h

theorem chunksGo_eq_map (sentences : List String) (maxc minov maxov : Nat) :
    ∀ (fuel start : Nat),
      chunksGo sentences maxc minov maxov fuel start
        = (chunkSpansGo sentences maxc minov maxov fuel start).map
            (fun p => joinSp (slice sentences p.1 p.2))
  | 0, start => rfl
  | fuel + 1, start => by
    rw [chunksGo_succ, chunkSpansGo_succ]
    by_cases hs : start < sentences.length
    · rw [if_pos hs, if_pos hs]
      have hspec := chunkStep_spec sentences maxc start hs
      by_cases hj : sentences.length ≤ (chunkStep sentences maxc start).2
      · rw [if_pos hj, if_pos hj]
        simp only [List.map_cons, List.map_nil]
        rw [hspec.1]
      · rw [if_neg hj, if_neg hj]
        simp only [List.map_cons]
        rw [hspec.1, chunksGo_eq_map sentences maxc minov maxov fuel _]
    · rw [if_neg hs, if_neg hs]
      rfl

theorem chunkSpansGo_full (sentences : List String) (maxc minov maxov fuel start : Nat)
    (hs : start < sentences.length)
    (hfull : sentences.length ≤ (chunkStep sentences maxc start).2) :
    chunkSpansGo sentences maxc minov maxov (fuel + 1) start
      = [(start, (chunkStep sentences maxc start).2)] := by
  rw [chunkSpansGo_succ, if_pos hs, if_pos hfull]

/-! ### Tiling the sentence sequence with the chunks' new runs -/

theorem chain'_le_getLastD : ∀ (l : List Nat) (x : Nat),
    List.Chain' (· ≤ ·) (x :: l) → x ≤ l.getLastD x
  | [], x, _ => le_refl x
  | y :: ys, x, h => by
    rw [List.getLastD_cons]
    exact le_trans (List.chain'_cons.mp h).1
      (chain'_le_getLastD ys y (List.chain'_cons.mp h).2)

theorem newRuns_flatten (sentences : List String) :
    ∀ (spans : List (Nat × Nat)) (prev : Nat),
      List.Chain' (· ≤ ·) (prev :: spans.map (fun p => p.2)) →
      (newRuns sentences prev spans).flatten
        = slice sentences prev ((spans.map (fun p => p.2)).getLastD prev)
  | [], prev, _ => by
    simp [newRuns, slice_self]
  | p :: rest, prev, h => by
    have hmap : (p :: rest).map (fun q : Nat × Nat => q.2)
        = p.2 :: rest.map (fun q : Nat × Nat => q.2) := rfl
    rw [hmap] at h
    have h1 : prev ≤ p.2 := (List.chain'_cons.mp h).1
    have h2 := (List.chain'_cons.mp h).2
    have ih := newRuns_flatten sentences rest p.2 h2
    have hlast : p.2 ≤ (rest.map (fun q : Nat × Nat => q.2)).getLastD p.2 :=
      chain'_le_getLastD _ _ h2
    show (slice sentences prev p.2 :: newRuns sentences p.2 rest).flatten
      = slice sentences prev ((p.2 :: rest.map (fun q : Nat × Nat => q.2)).getLastD prev)
    rw [List.flatten_cons, ih, List.getLastD_cons]
    exact slice_append sentences h1 hlast

/-! ### Claims about the chunker -/

/-- Claim C3: every chunk produced by `chunk_text` has text length at
most `max_chars`, except a chunk holding exactly one sentence that
alone exceeds `max_chars` — the only permitted overflow.  The
hypothesis is the nltk segmenter's contract: an empty segmentation only
arises from whitespace-only text. -/
theorem c3_chunk_length_bound (text : String) (sentences : List String)
    (max_chars min_overlap_chars max_overlap_chars : Nat)
    (hseg : sentences = [] → pyStrip text = "") :
    ∀ c ∈ chunk_text text sentences max_chars min_overlap_chars max_overlap_chars,
      c.length ≤ max_chars ∨ ∃ s ∈ sentences, c = s ∧ max_chars < s.length := by
  intro c hc
  simp only [chunk_text] at hc
  by_cases hemp : sentences = []
  · rw [if_pos hemp, if_pos (hseg hemp)] at hc
    simp at hc
  · rw [if_neg hemp] at hc
    by_cases hshort : text.length ≤ max_chars
    · rw [if_pos hshort] at hc
      simp only [List.mem_singleton] at hc
      subst hc
      exact Or.inl hshort
    · rw [if_neg hshort, chunksGo_eq_map] at hc
      simp only [List.mem_map] at hc
      obtain ⟨p, hp, hcp⟩ := hc
      obtain ⟨hlt, hle, hbound⟩ :=
        chunkSpansGo_mem sentences max_chars min_overlap_chars max_overlap_chars
          sentences.length 0 p hp
      subst hcp
      rcases hbound with hb | ⟨s, hs, hsl⟩
      · left
        rw [joinSp_length]
        exact hb
      · right
        refine ⟨s, ?_, ?_, hsl⟩
        · have hmem : s ∈ slice sentences p.1 p.2 := by
            rw [hs]
            exact List.mem_singleton.mpr rfl
          exact mem_slice hmem
        · rw [hs]
          rfl

/-- Closed witness for C3 at a concrete input that takes the main
chunking path. -/
theorem c3_chunk_length_bound_witness :
    ("aaaaa" : String).length ≤ 5
      ∨ ∃ s ∈ ["aaaaa", "bbb"], ("aaaaa" : String) = s ∧ 5 < s.length :=
  c3_chunk_length_bound "aaaaa bbb" ["aaaaa", "bbb"] 5 2 3 (by decide) "aaaaa" (by decide)

/-- Claim C5: when the sentence segmentation is empty (which, by the
segmenter's contract, means the stripped text is empty), `chunk_text`
returns the empty chunk sequence. -/
theorem c5_empty_segmentation (text : String) (sentences : List String)
    (max_chars min_overlap_chars max_overlap_chars : Nat)
    (hseg : sentences = []) (hstrip : pyStrip text = "") :
    chunk_text text sentences max_chars min_overlap_chars max_overlap_chars = [] := by
  simp only [chunk_text]
  rw [if_pos hseg, if_pos hstrip]

/-- Closed witness for C5 on the empty document. -/
theorem c5_empty_segmentation_witness : chunk_text "" [] 1200 200 400 = [] :=
  c5_empty_segmentation "" [] 1200 200 400 rfl (by decide)

/-- Claim C10: the forward-fill loop always admits at least one
sentence when started in bounds (so the empty-chunk fallback of
chunking.py lines 117–119 is unreachable), and every emitted chunk's
sentence range is nonempty — every chunk contains at least one complete
sentence. -/
theorem c10_forward_fill_progress (sentences : List String)
    (max_chars min_overlap_chars max_overlap_chars start : Nat) (p : Nat × Nat)
    (hstart : start < sentences.length)
    (hp : p ∈ chunkSpans sentences max_chars min_overlap_chars max_overlap_chars) :
    (buildChunk sentences max_chars start).1 ≠ []
      ∧ slice sentences p.1 p.2 ≠ [] ∧ p.1 < p.2 := by
  obtain ⟨hlt, hle, _⟩ :=
    chunkSpansGo_mem sentences max_chars min_overlap_chars max_overlap_chars
      sentences.length 0 p hp
  refine ⟨buildChunk_ne_nil sentences max_chars start hstart, ?_, hlt⟩
  have hlsl := length_slice sentences (le_of_lt hlt) hle
  intro hcon
  rw [hcon] at hlsl
  simp at hlsl
  omega

/-- Closed witness for C10. -/
theorem c10_forward_fill_progress_witness :
    (buildChunk ["aaaaa", "bbb"] 5 0).1 ≠ []
      ∧ slice ["aaaaa", "bbb"] (0, 1).1 (0, 1).2 ≠ [] ∧ (0, 1).1 < (0, 1).2 :=
  c10_forward_fill_progress ["aaaaa", "bbb"] 5 2 3 0 (0, 1) (by decide) (by decide)

/-- Claim C1 as stated is false: at `exC1` with
`max_chars = 30`, `min_overlap_chars = 10`, `max_overlap_chars = 15`
(valid parameters, `10 < 15 < 30`), the adjacent chunk pair has an
overlap of only 4 characters — below the floor — although chunk 0 is
not a single oversized sentence and the input remaining after chunk 0
(21 characters) is not smaller than the floor. -/
theorem c1_overlap_floor_counterexample :
    ¬ (∀ pq ∈ adjPairs (chunkSpans exC1 30 10 15),
        ¬ (pq.1.2 = pq.1.1 + 1 ∧ 30 < (exC1.getD pq.1.1 "").length) →
        (10 ≤ joinLen (slice exC1 pq.2.1 pq.1.2)
            ∧ joinLen (slice exC1 pq.2.1 pq.1.2) ≤ 15)
          ∨ joinLen (slice exC1 pq.1.2 exC1.length) < 10) := by
  decide

/-- Claim C1 amended: only the ceiling half of the overlap guarantee
holds unconditionally — for every adjacent chunk pair the shared
overlap span starts inside the previous chunk and its character count
is at most `max_overlap_chars`.  The `min_overlap_chars` floor is not
guaranteed: the walk silently stops once the cap would be exceeded
(the asymmetry the spec flags as an open question). -/
theorem c1_overlap_ceiling (sentences : List String)
    (max_chars min_overlap_chars max_overlap_chars : Nat) :
    List.Chain' (fun p q : Nat × Nat =>
        q.1 ≤ p.2 ∧ joinLen (slice sentences q.1 p.2) ≤ max_overlap_chars)
      (chunkSpans sentences max_chars min_overlap_chars max_overlap_chars) :=
  List.Chain'.imp (fun _ _ hpq => ⟨hpq.2.1, hpq.2.2⟩)
    (chunkSpansGo_chain sentences max_chars min_overlap_chars max_overlap_chars
      sentences.length 0)

/-- Claim C2 as stated is false: at `exC2` (document = the sentences
joined by single spaces, valid parameters `3 < 4 < 10`) the second
chunk inherits an **empty** overlap, so concatenating the chunks' new
text suffixes loses the separating space between "bbbbb" and "cccc"
and does not reproduce the sentence sequence joined by single
spaces. -/
theorem c2_reconstruction_counterexample :
    chunk_text (joinSp exC2) exC2 10 3 4 = ["aaaa bbbbb", "cccc"]
      ∧ String.join (newSuffixStrings exC2 0 (chunkSpans exC2 10 3 4)) ≠ joinSp exC2 := by
  decide

/-- Claim C2 amended: reconstruction holds at the sentence level.  For
a document equal to its sentences joined by single spaces and
parameters with `max_overlap_chars ≤ max_chars`, every chunk is the
join of its sentence range, and the chunks' new sentence runs (the
sentences beyond the overlap inherited from the predecessor)
concatenate, in order, to exactly the original sentence sequence —
every sentence appears exactly once.  (At the string level a single
separating space is absent wherever a chunk inherits an empty
overlap, as the counterexample shows.) -/
theorem c2_reconstruction_amended (text : String) (sentences : List String)
    (max_chars min_overlap_chars max_overlap_chars : Nat)
    (hov : max_overlap_chars ≤ max_chars) (htext : text = joinSp sentences) :
    chunk_text text sentences max_chars min_overlap_chars max_overlap_chars
      = (chunkSpans sentences max_chars min_overlap_chars max_overlap_chars).map
          (fun p => joinSp (slice sentences p.1 p.2))
    ∧ (newRuns sentences 0
          (chunkSpans sentences max_chars min_overlap_chars max_overlap_chars)).flatten
        = sentences := by
  by_cases hemp : sentences = []
  · subst hemp
    subst htext
    exact ⟨rfl, rfl⟩
  · have hlen : 0 < sentences.length := List.length_pos.mpr hemp
    have hbm := chunkSpansGo_bmono sentences max_chars min_overlap_chars max_overlap_chars hov
      sentences.length 0
    have hchain0 : List.Chain' (· ≤ ·)
        ((0 : Nat) :: (chunkSpans sentences max_chars min_overlap_chars max_overlap_chars).map
          (fun p => p.2)) := by
      refine List.chain'_cons'.mpr ⟨fun y _ => Nat.zero_le y, ?_⟩
      exact (List.chain'_map (fun p : Nat × Nat => p.2)).mpr hbm
    have hflat := newRuns_flatten sentences
      (chunkSpans sentences max_chars min_overlap_chars max_overlap_chars) 0 hchain0
    have hne : chunkSpans sentences max_chars min_overlap_chars max_overlap_chars ≠ [] :=
      chunkSpansGo_ne_nil sentences max_chars min_overlap_chars max_overlap_chars
        sentences.length 0 hlen (by omega)
    obtain ⟨q, hq⟩ : ∃ q, (chunkSpans sentences max_chars min_overlap_chars
        max_overlap_chars).getLast? = some q := by
      cases hcase : (chunkSpans sentences max_chars min_overlap_chars
          max_overlap_chars).getLast? with
      | some q => exact ⟨q, rfl⟩
      | none => exact absurd (List.getLast?_eq_none_iff.mp hcase) hne
    have hq2 : q.2 = sentences.length :=
      chunkSpansGo_getLast sentences max_chars min_overlap_chars max_overlap_chars
        sentences.length 0 q (by omega) hq
    have hlastD : ((chunkSpans sentences max_chars min_overlap_chars max_overlap_chars).map
        (fun p : Nat × Nat => p.2)).getLastD 0 = sentences.length := by
      rw [List.getLastD_eq_getLast?, List.getLast?_map, hq]
      simp [hq2]
    rw [hlastD, slice_zero_length] at hflat
    refine ⟨?_, hflat⟩
    simp only [chunk_text]
    rw [if_neg hemp]
    by_cases hshort : text.length ≤ max_chars
    · rw [if_pos hshort]
      have hall : joinLen sentences ≤ max_chars := by
        rw [← joinSp_length, ← htext]
        exact hshort
      have hreach : sentences.length ≤ (chunkStep sentences max_chars 0).2 := by
        refine chunkStep_reaches sentences max_chars 0 sentences.length hlen (Nat.zero_le _)
          (le_refl _) ?_
        rw [slice_zero_length]
        exact hall
      obtain ⟨f, hf⟩ : ∃ f, sentences.length = f + 1 := ⟨sentences.length - 1, by omega⟩
      have hspans : chunkSpans sentences max_chars min_overlap_chars max_overlap_chars
          = [(0, (chunkStep sentences max_chars 0).2)] := by
        show chunkSpansGo sentences max_chars min_overlap_chars max_overlap_chars
          sentences.length 0 = _
        rw [hf]
        exact chunkSpansGo_full sentences max_chars min_overlap_chars max_overlap_chars f 0
          hlen hreach
      rw [hspans]
      have hj : (chunkStep sentences max_chars 0).2 = sentences.length :=
        le_antisymm (chunkStep_spec sentences max_chars 0 hlen).2.2 hreach
      simp only [List.map_cons, List.map_nil]
      show [text] = [joinSp (slice sentences 0 (chunkStep sentences max_chars 0).2)]
      rw [hj, slice_zero_length, htext]
    · rw [if_neg hshort]
      rw [chunksGo_eq_map]
      rfl

/-- Closed witness for the amended C2 at the counterexample input. -/
theorem c2_reconstruction_amended_witness :
    chunk_text (joinSp exC2) exC2 10 3 4
      = (chunkSpans exC2 10 3 4).map (fun p => joinSp (slice exC2 p.1 p.2))
    ∧ (newRuns exC2 0 (chunkSpans exC2 10 3 4)).flatten = exC2 :=
  c2_reconstruction_amended (joinSp exC2) exC2 10 3 4 (by decide) rfl

/-- Claim C4 as stated is false: `chunk_text` performs no parameter
validation.  With `min_overlap_chars = 300 ≥ max_chars = 5` the call is
not rejected — it runs the full algorithm and returns a chunk
sequence. -/
theorem c4_no_validation_counterexample :
    chunk_text "aaaaa bbb" ["aaaaa", "bbb"] 5 300 400 = ["aaaaa", "bbb"]
      ∧ chunk_text "aaaaa bbb" ["aaaaa", "bbb"] 5 300 400 ≠ [] := by
  decide

/-- Claim C4 amended: the chunker never fails fast on invalid
parameters; for any parameters whatsoever (including
`min_overlap_chars ≥ max_chars`), a non-empty segmentation of an
over-long document always produces a non-empty chunk sequence. -/
theorem c4_amended_no_fail_fast (text : String) (sentences : List String)
    (max_chars min_overlap_chars max_overlap_chars : Nat)
    (hne : sentences ≠ []) (hlong : max_chars < text.length) :
    chunk_text text sentences max_chars min_overlap_chars max_overlap_chars ≠ [] := by
  simp only [chunk_text]
  rw [if_neg hne, if_neg (by omega)]
  have hlen : 0 < sentences.length := List.length_pos.mpr hne
  obtain ⟨f, hf⟩ : ∃ f, sentences.length = f + 1 := ⟨sentences.length - 1, by omega⟩
  rw [hf, chunksGo_succ, if_pos hlen]
  by_cases hj : sentences.length ≤ (chunkStep sentences max_chars 0).2
  · rw [if_pos hj]
    exact List.cons_ne_nil _ _
  · rw [if_neg hj]
    exact List.cons_ne_nil _ _

/-- Closed witness for the amended C4 with invalid parameters
(`min_overlap_chars = 7 ≥ max_chars = 5`). -/
theorem c4_amended_no_fail_fast_witness :
    chunk_text "aaaaa bbb" ["aaaaa", "bbb"] 5 7 9 ≠ [] :=
  c4_amended_no_fail_fast "aaaaa bbb" ["aaaaa", "bbb"] 5 7 9 (by decide) (by decide)

/-! ### Claims about the retriever -/

/-- Claim C6: every chunk returned by `find_similar_chunks` comes from
a table row of the requested case, with a timestamp inside
`[start_date, 23:59:59 of end_date]` and a present (non-NULL)
embedding. -/
theorem c6_retrieval_scoping (dist : List ℚ → List ℚ → ℚ) (rows : List NoteChunkRow)
    (case_id start_date end_date : Nat) (qv : List ℚ) (res : RetrievedChunk)
    (hres : res ∈ find_similar_chunks dist rows case_id start_date end_date qv) :
    dateToTimestamp start_date ≤ res.created_at ∧ res.created_at ≤ endOfDay end_date
    ∧ ∃ r ∈ rows, res = toRetrieved dist qv r ∧ r.case_id = case_id
        ∧ r.embedding.isSome = true := by
  rw [find_similar_chunks] at hres
  simp only [List.mem_map] at hres
  obtain ⟨r, hrtake, hres_eq⟩ := hres
  have hr_sorted := List.mem_of_mem_take hrtake
  rw [sortedMatches] at hr_sorted
  have hr_match : r ∈ matchingRows rows case_id start_date end_date :=
    (List.perm_insertionSort _ _).mem_iff.mp hr_sorted
  rw [matchingRows, List.mem_filter] at hr_match
  obtain ⟨hr_rows, hr_cond⟩ := hr_match
  simp only [rowMatches, Bool.and_eq_true, decide_eq_true_eq, beq_iff_eq] at hr_cond
  obtain ⟨⟨⟨hcase, hstart⟩, hend⟩, hemb⟩ := hr_cond
  subst hres_eq
  exact ⟨hstart, hend, r, hr_rows, rfl, hcase, hemb⟩

/-- Closed witness for C6 on a one-row table. -/
theorem c6_retrieval_scoping_witness :
    dateToTimestamp 10 ≤ (toRetrieved (fun _ _ => 0) [] exRow).created_at
    ∧ (toRetrieved (fun _ _ => 0) [] exRow).created_at ≤ endOfDay 20
    ∧ ∃ r ∈ [exRow], toRetrieved (fun _ _ => (0 : ℚ)) [] exRow = toRetrieved (fun _ _ => 0) [] r
        ∧ r.case_id = 7 ∧ r.embedding.isSome = true :=
  c6_retrieval_scoping (fun _ _ => 0) [exRow] 7 10 20 []
    (toRetrieved (fun _ _ => 0) [] exRow)
    (by
      show toRetrieved (fun _ _ => (0 : ℚ)) [] exRow
        ∈ find_similar_chunks (fun _ _ => 0) [exRow] 7 10 20 []
      rw [find_similar_chunks, sortedMatches, matchingRows]
      have hfilter : List.filter (rowMatches 7 10 20) [exRow] = [exRow] := by decide
      rw [hfilter]
      exact List.mem_singleton.mpr rfl)

/-- Claim C7: `find_similar_chunks` returns exactly
`min(TOP_K, number of matching rows)` results, ordered by
non-increasing similarity. -/
theorem c7_retrieval_size_order (dist : List ℚ → List ℚ → ℚ) (rows : List NoteChunkRow)
    (case_id start_date end_date : Nat) (qv : List ℚ) :
    (find_similar_chunks dist rows case_id start_date end_date qv).length
      = min TOP_K (matchingRows rows case_id start_date end_date).length
    ∧ List.Chain' (fun a b => b.similarity ≤ a.similarity)
        (find_similar_chunks dist rows case_id start_date end_date qv) := by
  constructor
  · rw [find_similar_chunks, List.length_map, List.length_take, sortedMatches,
      List.length_insertionSort]
  · rw [find_similar_chunks]
    refine List.Pairwise.chain' ?_
    refine (List.pairwise_map).mpr ?_
    refine List.Pairwise.sublist (List.take_sublist _ _) ?_
    rw [sortedMatches]
    haveI ht : IsTotal NoteChunkRow (fun a b => distKey dist qv a ≤ distKey dist qv b) :=
      ⟨fun a b => le_total _ _⟩
    haveI htr : IsTrans NoteChunkRow (fun a b => distKey dist qv a ≤ distKey dist qv b) :=
      ⟨fun a b c hab hbc => le_trans hab hbc⟩
    have hsorted := List.sorted_insertionSort
      (fun a b => distKey dist qv a ≤ distKey dist qv b)
      (matchingRows rows case_id start_date end_date)
    refine List.Pairwise.imp ?_ hsorted
    intro a b hab
    show (toRetrieved dist qv b).similarity ≤ (toRetrieved dist qv a).similarity
    simp only [toRetrieved]
    exact sub_le_sub_left hab 1

/-! ### Claim about the context assembler -/

theorem flatMap_turnPairMessages_length : ∀ (pairs : List (String × String)),
    (pairs.flatMap turnPairMessages).length = 2 * pairs.length
  | [] => rfl
  | p :: rest => by
    simp only [List.flatMap_cons, List.length_append, turnPairMessages, List.length_cons,
      List.length_nil, flatMap_turnPairMessages_length rest]
    omega

theorem flatMap_turnPairMessages_drop : ∀ (k : Nat) (pairs : List (String × String)),
    (pairs.flatMap turnPairMessages).drop (2 * k) = (pairs.drop k).flatMap turnPairMessages
  | 0, pairs => by simp
  | k + 1, [] => by simp
  | k + 1, p :: rest => by
    have h2 : 2 * (k + 1) = 2 * k + 1 + 1 := by omega
    simp only [List.flatMap_cons, turnPairMessages, List.cons_append, List.nil_append, h2,
      List.drop_succ_cons]
    exact flatMap_turnPairMessages_drop k rest

theorem map_toGemini_flatMap : ∀ (pairs : List (String × String)),
    (pairs.flatMap turnPairMessages).map toGeminiMessage
      = pairs.flatMap (fun p => [⟨"user", [p.1]⟩, ⟨"model", [p.2]⟩])
  | [] => rfl
  | p :: rest => by
    have hne : ("user" : String) ≠ "assistant" := by decide
    simp only [List.flatMap_cons, turnPairMessages, List.map_append, List.map_cons,
      List.map_nil, toGeminiMessage, map_toGemini_flatMap rest]
    simp [hne]

/-- Claim C8: when the prior-message list holds more than
`MAX_HISTORY_TURNS` turn-pairs, the generation request contains exactly
the most recent `MAX_HISTORY_TURNS` turn-pairs of history (role-mapped
for Gemini), all older turns dropped, followed by the current user turn
carrying the context block and the question. -/
theorem c8_history_truncation (q : String) (notes : List RetrievedNoteView)
    (pairs : List (String × String)) (_h : MAX_HISTORY_TURNS < pairs.length) :
    generateContents q notes (pairs.flatMap turnPairMessages)
      = (pairs.drop (pairs.length - MAX_HISTORY_TURNS)).flatMap
          (fun p => [⟨"user", [p.1]⟩, ⟨"model", [p.2]⟩])
        ++ [{ role := "user", parts := [fullUserMessage q notes] }] := by
  simp only [generateContents, historyMessages]
  have hlen := flatMap_turnPairMessages_length pairs
  have harith : (pairs.flatMap turnPairMessages).length - MAX_HISTORY_TURNS * 2
      = 2 * (pairs.length - MAX_HISTORY_TURNS) := by
    rw [hlen]
    simp only [MAX_HISTORY_TURNS]
    omega
  rw [harith, flatMap_turnPairMessages_drop, map_toGemini_flatMap]

/-- Closed witness for C8 with eleven turn-pairs: exactly the last ten
remain in the prompt. -/
theorem c8_history_truncation_witness :
    generateContents "q" [] (exPairs.flatMap turnPairMessages)
      = (exPairs.drop (exPairs.length - MAX_HISTORY_TURNS)).flatMap
          (fun p => [⟨"user", [p.1]⟩, ⟨"model", [p.2]⟩])
        ++ [{ role := "user", parts := [fullUserMessage "q" []] }] :=
  c8_history_truncation "q" [] exPairs (by decide)

/-! ### Claim about the embedding service -/

/-- Claim C9: the query embedding call sends exactly the fixed BGE
instruction followed by the query (and nothing else), while the
document embedding call sends the texts unmodified with no prefix —
stated for every possible inference backend `api`, and again for a
transparent backend `f` showing the request strings themselves. -/
theorem c9_query_prefix_only (api : List String → HFResponse) (f : String → List ℚ)
    (query : String) (texts : List String) :
    embed_query api query = (hfResponseVectors (api [BGE_QUERY_PREFIX ++ query])).headD []
    ∧ embed_documents api texts = hfResponseVectors (api texts)
    ∧ embed_query (fun reqs => HFResponse.flat (reqs.map f)) query
        = f (BGE_QUERY_PREFIX ++ query)
    ∧ embed_documents (fun reqs => HFResponse.flat (reqs.map f)) texts = texts.map f
    ∧ BGE_QUERY_PREFIX = "Represent this sentence for searching relevant passages: " :=
  ⟨rfl, rfl, rfl, rfl, rfl⟩

end CaseNotes
